import Mathlib

/-
  Verification development for the fastspace-schema-form rules engine.

  Shallow embedding of the engine's core modules:
  - src/core/engine/condition.ts   (condition evaluation, dependency extraction,
                                    compute-value validity, compute evaluation)
  - src/core/engine/fieldState.ts  (watch-field derivation)
  - schema parser                  (parseSchema, getDownstreamFields)
  - src/core/validation/valibotAdapter.ts (dynamic validator construction)

  JavaScript numbers are modelled as rationals extended with NaN and the two
  infinities (negative zero is not distinguished; none of the verified
  properties depend on it).  JavaScript values are modelled by the inductive
  type Value below; object/array strict equality is reference equality in
  JavaScript and is modelled conservatively as false (distinct references).
-/

namespace FastSpace

/-- A JavaScript number: NaN, +Infinity, -Infinity, or a finite value
(modelled as a rational). -/
inductive JsNum where
  | nan : JsNum
  | posInf : JsNum
  | negInf : JsNum
  | finite : ℚ → JsNum
deriving DecidableEq

namespace JsNum

/-- Number.isNaN -/
def isNaN : JsNum → Bool
  | nan => true
  | _ => false

/-- Number.isFinite -/
def isFinite : JsNum → Bool
  | finite _ => true
  | _ => false

/-- JavaScript multiplication on numbers. -/
def mul : JsNum → JsNum → JsNum
  | nan, _ => nan
  | _, nan => nan
  | posInf, posInf => posInf
  | posInf, negInf => negInf
  | negInf, posInf => negInf
  | negInf, negInf => posInf
  | posInf, finite q => if q > 0 then posInf else if q < 0 then negInf else nan
  | finite q, posInf => if q > 0 then posInf else if q < 0 then negInf else nan
  | negInf, finite q => if q > 0 then negInf else if q < 0 then posInf else nan
  | finite q, negInf => if q > 0 then negInf else if q < 0 then posInf else nan
  | finite a, finite b => finite (a * b)

/-- JavaScript division on numbers. -/
def div : JsNum → JsNum → JsNum
  | nan, _ => nan
  | _, nan => nan
  | posInf, posInf => nan
  | posInf, negInf => nan
  | negInf, posInf => nan
  | negInf, negInf => nan
  | posInf, finite q => if q ≥ 0 then posInf else negInf
  | negInf, finite q => if q ≥ 0 then negInf else posInf
  | finite _, posInf => finite 0
  | finite _, negInf => finite 0
  | finite a, finite b =>
      if b ≠ 0 then finite (a / b)
      else if a > 0 then posInf
      else if a < 0 then negInf
      else nan

/-- JavaScript strict comparison a > b (false whenever NaN is involved). -/
def gtb : JsNum → JsNum → Bool
  | nan, _ => false
  | _, nan => false
  | posInf, posInf => false
  | posInf, _ => true
  | _, posInf => false
  | negInf, _ => false
  | finite _, negInf => true
  | finite a, finite b => a > b

/-- JavaScript comparison a >= b (false whenever NaN is involved). -/
def geb : JsNum → JsNum → Bool
  | nan, _ => false
  | _, nan => false
  | posInf, _ => true
  | _, posInf => false
  | negInf, negInf => true
  | negInf, finite _ => false
  | finite _, negInf => true
  | finite a, finite b => a ≥ b

/-- JavaScript comparison a < b. -/
def ltb (a b : JsNum) : Bool := gtb b a

/-- JavaScript comparison a <= b. -/
def leb (a b : JsNum) : Bool := geb b a

/-- Strict equality on numbers: NaN === NaN is false. -/
def strictEq : JsNum → JsNum → Bool
  | nan, _ => false
  | _, nan => false
  | posInf, posInf => true
  | negInf, negInf => true
  | finite a, finite b => a = b
  | _, _ => false

/-- SameValueZero equality (used by Array.prototype.includes):
NaN equals NaN. -/
def sameValueZero : JsNum → JsNum → Bool
  | nan, nan => true
  | a, b => strictEq a b

end JsNum

/-- A JavaScript value as the engine sees them. -/
inductive Value where
  | undef : Value
  | null : Value
  | bool : Bool → Value
  | num : JsNum → Value
  | str : String → Value
  | arr : List Value → Value
  | obj : List (String × Value) → Value

/-- A value snapshot (a JavaScript record): association list, first key wins
on lookup (construction keeps keys unique). -/
abbrev ValMap := List (String × Value)

/-- Property read values[k], yielding undefined when absent. -/
def getVal (m : ValMap) (k : String) : Value :=
  match m.find? (fun p => p.1 = k) with
  | some p => p.2
  | none => Value.undef

/-- Record assignment m[k] = v: replace in place or append. -/
def setVal (m : ValMap) (k : String) (v : Value) : ValMap :=
  if m.any (fun p => p.1 = k) then
    m.map (fun p => if p.1 = k then (k, v) else p)
  else m ++ [(k, v)]

/-- Digit-string value. -/
def digitsToNat (l : List Char) : ℕ :=
  l.foldl (fun acc c => acc * 10 + (c.toNat - '0'.toNat)) 0

/-- Parse an unsigned decimal literal (digits, digits.digits, .digits). -/
def parseDecimal (l : List Char) : Option ℚ :=
  let intPart := l.takeWhile Char.isDigit
  let rest := l.dropWhile Char.isDigit
  match rest with
  | [] => if intPart.isEmpty then none else some (digitsToNat intPart)
  | '.' :: frac =>
      if frac.all Char.isDigit ∧ ¬(intPart.isEmpty ∧ frac.isEmpty) then
        some ((digitsToNat intPart : ℚ) +
          (digitsToNat frac : ℚ) / ((10 : ℚ) ^ frac.length))
      else none
  | _ => none

/-- The Number(string) coercion: trimmed empty string is 0, signed decimal
literals and Infinity are parsed, everything else is NaN (exponent and hex
forms are omitted; no verified property exercises them). -/
def jsNumber (s : String) : JsNum :=
  let t := s.trim
  if t = "" then JsNum.finite 0
  else if t = "Infinity" ∨ t = "+Infinity" then JsNum.posInf
  else if t = "-Infinity" then JsNum.negInf
  else
    match t.toList with
    | '-' :: rest =>
        match parseDecimal rest with
        | some q => JsNum.finite (-q)
        | none => JsNum.nan
    | '+' :: rest =>
        match parseDecimal rest with
        | some q => JsNum.finite q
        | none => JsNum.nan
    | l =>
        match parseDecimal l with
        | some q => JsNum.finite q
        | none => JsNum.nan

/-- The ToNumber coercion applied by arithmetic operators.  Arrays convert
through their string form: [] is 0, a singleton converts as its element,
longer arrays are NaN; plain objects are NaN. -/
def toNumber : Value → JsNum
  | Value.undef => JsNum.nan
  | Value.null => JsNum.finite 0
  | Value.bool b => if b then JsNum.finite 1 else JsNum.finite 0
  | Value.num n => n
  | Value.str s => jsNumber s
  | Value.arr [] => JsNum.finite 0
  | Value.arr [v] => toNumber v
  | Value.arr (_ :: _ :: _) => JsNum.nan
  | Value.obj _ => JsNum.nan

/-- JavaScript strict equality (===).  Arrays and objects compare by
reference in JavaScript; a condition literal and a snapshot value are
distinct references, so the comparison is modelled as false. -/
def jsStrictEq : Value → Value → Bool
  | Value.undef, Value.undef => true
  | Value.null, Value.null => true
  | Value.bool a, Value.bool b => a = b
  | Value.num a, Value.num b => JsNum.strictEq a b
  | Value.str a, Value.str b => a = b
  | _, _ => false

/-- SameValueZero (used by includes): like strict equality but
NaN equals NaN. -/
def jsSameValueZero : Value → Value → Bool
  | Value.num a, Value.num b => JsNum.sameValueZero a b
  | a, b => jsStrictEq a b

/-
  Condition expressions (src/core/engine/condition.ts).

  A condition is the raw JavaScript value handed to evaluateCondition:
  undefined/null (absent), a predicate function, or an object whose
  recognised keys are optional.  The obj constructor records, in order:
  field, eq, ne, gt, gte, lt, lte, in, notIn, empty, notEmpty, and, or, not.
  Option none means the key is absent from the object.
-/
inductive Cond where
  | absent : Cond
  | func : (ValMap → Bool) → Cond
  | obj : Option String → Option Value → Option Value →
      Option JsNum → Option JsNum → Option JsNum → Option JsNum →
      Option Value → Option Value → Option Bool → Option Bool →
      Option (List Cond) → Option (List Cond) → Option Cond → Cond

/-- Truthiness of a condition slot: undefined/null are falsy, functions and
objects are truthy (models checks such as if (field.visibleWhen)). -/
def condTruthy : Cond → Bool
  | Cond.absent => false
  | _ => true

/-- isEmpty from condition.ts. -/
def isEmpty : Value → Bool
  | Value.undef => true
  | Value.null => true
  | Value.str s => s.trim = ""
  | Value.arr l => l.isEmpty
  | _ => false

/-- Property read on an arbitrary value (current[part] in getFieldValue).
Only plain objects yield properties here; indexing into strings/arrays/
numbers is modelled as undefined (no verified property exercises it). -/
def getProp : Value → String → Value
  | Value.obj l, k => getVal l k
  | _, _ => Value.undef

/-- fieldPath.split on the dot separator. -/
def splitOnDot (s : String) : List String :=
  go [] s.data
where
  go (cur : List Char) : List Char → List String
    | [] => [String.mk cur.reverse]
    | c :: rest =>
        if c = '.' then String.mk cur.reverse :: go [] rest
        else go (c :: cur) rest

/-- getFieldValue: dot-path traversal over the snapshot, returning
undefined as soon as an intermediate value is undefined or null. -/
def getFieldValue (values : ValMap) (fieldPath : String) : Value :=
  go (splitOnDot fieldPath) (Value.obj values)
where
  go : List String → Value → Value
    | [], current => current
    | part :: rest, current =>
        match current with
        | Value.undef => Value.undef
        | Value.null => Value.undef
        | v => go rest (getProp v part)

/-- evaluateSimpleCondition: the if-chain over the recognised operator keys,
applied to the resolved field value. -/
def evaluateSimpleCondition (fieldValue : Value)
    (eqV neV : Option Value) (gtV gteV ltV lteV : Option JsNum)
    (inV notInV : Option Value) (emptyV notEmptyV : Option Bool) : Bool :=
  match eqV with
  | some v => jsStrictEq fieldValue v
  | none =>
  match neV with
  | some v => !jsStrictEq fieldValue v
  | none =>
  match gtV, fieldValue with
  | some b, Value.num n => JsNum.gtb n b
  | _, _ =>
  match gteV, fieldValue with
  | some b, Value.num n => JsNum.geb n b
  | _, _ =>
  match ltV, fieldValue with
  | some b, Value.num n => JsNum.ltb n b
  | _, _ =>
  match lteV, fieldValue with
  | some b, Value.num n => JsNum.leb n b
  | _, _ =>
  match inV with
  | some (Value.arr l) => l.any (fun v => jsSameValueZero v fieldValue)
  | _ =>
  match notInV with
  | some (Value.arr l) => !l.any (fun v => jsSameValueZero v fieldValue)
  | _ =>
  match emptyV with
  | some b => if b then isEmpty fieldValue else !isEmpty fieldValue
  | none =>
  match notEmptyV with
  | some b => if b then !isEmpty fieldValue else isEmpty fieldValue
  | none => false

mutual

/-- evaluateCondition from condition.ts: absent conditions hold, predicate
functions are invoked, objects with a field key are simple conditions,
objects with an and/or/not key are compound, and anything else yields true
(the final return true at the end of the source function). -/
def evaluateCondition (condition : Cond) (values : ValMap) : Bool :=
  match condition with
  | Cond.absent => true
  | Cond.func f => f values
  | Cond.obj fieldK eqV neV gtV gteV ltV lteV inV notInV emptyV notEmptyV
      andC orC notC =>
    match fieldK with
    | some fieldPath =>
        evaluateSimpleCondition (getFieldValue values fieldPath)
          eqV neV gtV gteV ltV lteV inV notInV emptyV notEmptyV
    | none =>
      match andC with
      | some l => condAll l values
      | none =>
        match orC with
        | some l => condAny l values
        | none =>
          match notC with
          | some c => !evaluateCondition c values
          | none => true

/-- every over sub-conditions (and). -/
def condAll (l : List Cond) (values : ValMap) : Bool :=
  match l with
  | [] => true
  | c :: rest => evaluateCondition c values && condAll rest values

/-- some over sub-conditions (or). -/
def condAny (l : List Cond) (values : ValMap) : Bool :=
  match l with
  | [] => false
  | c :: rest => evaluateCondition c values || condAny rest values

end

/-- List-based set insertion preserving insertion order, as a JavaScript
Set.add. -/
def addUniq (l : List String) (x : String) : List String :=
  if l.contains x then l else l ++ [x]

/-- First-occurrence deduplication ([...new Set(xs)]). -/
def dedupFirst (l : List String) : List String :=
  l.foldl addUniq []

mutual

/-- extractDependencies for ConditionExpression values (the first
extractDependencies in condition.ts): collect every field referenced by a
simple condition reachable through and/or/not, then deduplicate. -/
def extractDependenciesCond (condition : Cond) : List String :=
  match condition with
  | Cond.absent => []
  | Cond.func _ => []
  | Cond.obj fieldK _ _ _ _ _ _ _ _ _ _ andC orC notC =>
    match fieldK with
    | some f => dedupFirst [f]
    | none =>
      match andC with
      | some l => dedupFirst (edcList l)
      | none =>
        match orC with
        | some l => dedupFirst (edcList l)
        | none =>
          match notC with
          | some c => dedupFirst (extractDependenciesCond c)
          | none => dedupFirst []

/-- Concatenation of recursive extraction over a sub-condition list. -/
def edcList (l : List Cond) : List String :=
  match l with
  | [] => []
  | c :: rest => extractDependenciesCond c ++ edcList rest

end

/-
  Compute-expression helpers (second half of condition.ts).
-/

/-- Word character of the identifier regex: [a-zA-Z0-9_]. -/
def isWordChar (c : Char) : Bool :=
  c.isAlpha || c.isDigit || c = '_'

/-- Identifier start character: [a-zA-Z_]. -/
def isIdentStart (c : Char) : Bool :=
  c.isAlpha || c = '_'

/-- Accumulating scanner for maximal word-character runs; cur holds the
characters of the current run in reverse. -/
def wordRunsGo (cur : List Char) : List Char → List (List Char)
  | [] => if cur.isEmpty then [] else [cur.reverse]
  | c :: rest =>
      if isWordChar c then wordRunsGo (c :: cur) rest
      else if cur.isEmpty then wordRunsGo [] rest
      else cur.reverse :: wordRunsGo [] rest

/-- Split a character list into its maximal runs of word characters
(the regex token stream). -/
def wordRuns (l : List Char) : List (List Char) :=
  wordRunsGo [] l

/-- All matches of the identifier pattern [a-zA-Z_][a-zA-Z0-9_]* with word
boundaries: exactly the maximal word-character runs whose first character is
a letter or underscore (a run starting with a digit matches nowhere). -/
def identifierMatches (expr : String) : List String :=
  ((wordRuns expr.toList).filter
    (fun run => match run with
      | c :: _ => isIdentStart c
      | [] => false)).map (fun run => String.mk run)

/-- The keyword/builtin blocklist of extractDependencies in condition.ts. -/
def computeKeywords : List String :=
  ["true", "false", "null", "undefined", "NaN", "Infinity", "Math",
   "Number", "String", "Boolean", "Array", "Object", "if", "else",
   "return", "function"]

/-- extractDependencies for compute-expression strings (condition.ts):
tokenize on the identifier pattern, drop blocklisted names, deduplicate. -/
def extractDependencies (expr : String) : List String :=
  dedupFirst ((identifierMatches expr).filter
    (fun id => !computeKeywords.contains id))

/-- isValidComputeValue from condition.ts. -/
def isValidComputeValue : Value → Bool
  | Value.undef => false
  | Value.null => false
  | Value.num n => !n.isNaN
  | Value.str s => s.trim ≠ ""
  | _ => true

/-- The arithmetic fragment of the compute sublanguage needed by the
verified properties (variables, literals, multiplication, division).  The
source evaluates the expression string with a dynamically created function;
the embedding takes the already-parsed expression. -/
inductive CExpr where
  | num : ℚ → CExpr
  | var : String → CExpr
  | mul : CExpr → CExpr → CExpr
  | div : CExpr → CExpr → CExpr

/-- Evaluate an expression in the environment of bound dependency values.
none models a thrown ReferenceError (an identifier not bound as a
parameter), which evaluateCompute catches. -/
def evalExpr : CExpr → ValMap → Option Value
  | CExpr.num q, _ => some (Value.num (JsNum.finite q))
  | CExpr.var s, env =>
      match env.find? (fun p => p.1 = s) with
      | some p => some p.2
      | none => none
  | CExpr.mul a b, env => do
      let x ← evalExpr a env
      let y ← evalExpr b env
      some (Value.num (JsNum.mul (toNumber x) (toNumber y)))
  | CExpr.div a b, env => do
      let x ← evalExpr a env
      let y ← evalExpr b env
      some (Value.num (JsNum.div (toNumber x) (toNumber y)))

/-- Rounding mode of a compute configuration. -/
inductive RoundMode where
  | round : RoundMode
  | ceil : RoundMode
  | floor : RoundMode
deriving DecidableEq

/-- Math.floor. -/
def jsFloor (n : JsNum) : JsNum :=
  match n with
  | JsNum.finite q => JsNum.finite (Int.floor q : ℤ)
  | x => x

/-- Math.ceil. -/
def jsCeil (n : JsNum) : JsNum :=
  match n with
  | JsNum.finite q => JsNum.finite (Int.ceil q : ℤ)
  | x => x

/-- Number(x.toFixed(p)) on a finite number: decimal rounding to p digits,
ties resolved by picking the larger candidate integer numerator (half
toward positive infinity), per the toFixed specification. -/
def jsToFixed (q : ℚ) (p : ℕ) : ℚ :=
  (Int.floor (q * (10 : ℚ) ^ p + 1/2) : ℚ) / (10 : ℚ) ^ p

/-- The safeValues record of evaluateCompute: only the declared
dependencies are bound; numeric-looking strings are coerced to numbers and
nullish values collapse to 0. -/
def safeValues (values : ValMap) (dependencies : List String) : ValMap :=
  dependencies.foldl
    (fun m dep =>
      let v := getVal values dep
      let coerced :=
        match v with
        | Value.str s =>
            if !(jsNumber s).isNaN then Value.num (jsNumber s) else Value.str s
        | Value.undef => Value.num (JsNum.finite 0)
        | Value.null => Value.num (JsNum.finite 0)
        | w => w
      setVal m dep coerced)
    []

/-- The numeric post-processing of evaluateCompute: non-finite results
become undefined, then the optional precision/rounding policy applies. -/
def postProcess (result : Value) (precision : Option ℤ)
    (roundMode : RoundMode) : Value :=
  match result with
  | Value.num n =>
      if !n.isFinite then Value.undef
      else
        match precision with
        | some p =>
            if p ≥ 0 then
              let pn := p.toNat
              match n with
              | JsNum.finite q =>
                  match roundMode with
                  | RoundMode.ceil =>
                      Value.num (JsNum.div (jsCeil (JsNum.mul (JsNum.finite q)
                        (JsNum.finite ((10 : ℚ) ^ pn))))
                        (JsNum.finite ((10 : ℚ) ^ pn)))
                  | RoundMode.floor =>
                      Value.num (JsNum.div (jsFloor (JsNum.mul (JsNum.finite q)
                        (JsNum.finite ((10 : ℚ) ^ pn))))
                        (JsNum.finite ((10 : ℚ) ^ pn)))
                  | RoundMode.round =>
                      Value.num (JsNum.finite (jsToFixed q pn))
              | x => Value.num x
            else Value.num n
        | none => Value.num n
  | v => v

/-- evaluateCompute from condition.ts: dependency-validity guard, scoped
coercion into safeValues, expression evaluation (an exception yields
undefined), non-finite sanitization and precision handling. -/
def evaluateCompute (expr : CExpr) (values : ValMap)
    (dependencies : List String) (precision : Option ℤ)
    (roundMode : RoundMode) : Value :=
  if dependencies.any (fun dep => !isValidComputeValue (getVal values dep)) then
    Value.undef
  else
    match evalExpr expr (safeValues values dependencies) with
    | none => Value.undef
    | some result => postProcess result precision roundMode

/-
  Schema data model (src/types.ts), restricted to the attributes the
  verified properties read.  Validation rules are modelled for the rule
  kinds the claims exercise; pattern/email/url/custom rules carry opaque
  predicates in the source and are outside the verified fragment.
-/

/-- A validation rule descriptor. -/
inductive Rule where
  | required : Rule
  | minLength : ℤ → Rule
  | maxLength : ℤ → Rule
  | ruleMin : ℚ → Rule
  | ruleMax : ℚ → Rule
  | arrayRule : Option ℤ → Option ℤ → Rule
deriving DecidableEq

/-- A compute configuration.  expr is kept as the source string (used by
the schema parser for dependency inference); evaluateCompute receives the
parsed expression separately. -/
structure ComputeConfig where
  expr : String
  dependencies : Option (List String)
  precision : Option ℤ
  roundMode : Option RoundMode

/-- A field schema.  multiple models ui.props.multiple === true; columns
uses the empty list for an absent columns attribute (an empty array and an
absent one behave identically in every use site of the source). -/
inductive FieldSchema where
  | mk : String → String → Bool → Bool → List Rule →
      Cond → Cond → Cond →
      Option ComputeConfig → Option (List String) → Option Value →
      List FieldSchema → Option ℤ → Option ℤ → FieldSchema

def FieldSchema.name : FieldSchema → String
  | FieldSchema.mk n _ _ _ _ _ _ _ _ _ _ _ _ _ => n

def FieldSchema.component : FieldSchema → String
  | FieldSchema.mk _ c _ _ _ _ _ _ _ _ _ _ _ _ => c

def FieldSchema.hidden : FieldSchema → Bool
  | FieldSchema.mk _ _ h _ _ _ _ _ _ _ _ _ _ _ => h

def FieldSchema.multiple : FieldSchema → Bool
  | FieldSchema.mk _ _ _ m _ _ _ _ _ _ _ _ _ _ => m

def FieldSchema.rules : FieldSchema → List Rule
  | FieldSchema.mk _ _ _ _ r _ _ _ _ _ _ _ _ _ => r

def FieldSchema.visibleWhen : FieldSchema → Cond
  | FieldSchema.mk _ _ _ _ _ v _ _ _ _ _ _ _ _ => v

def FieldSchema.disabledWhen : FieldSchema → Cond
  | FieldSchema.mk _ _ _ _ _ _ d _ _ _ _ _ _ _ => d

def FieldSchema.requiredWhen : FieldSchema → Cond
  | FieldSchema.mk _ _ _ _ _ _ _ r _ _ _ _ _ _ => r

def FieldSchema.compute : FieldSchema → Option ComputeConfig
  | FieldSchema.mk _ _ _ _ _ _ _ _ c _ _ _ _ _ => c

def FieldSchema.dependencies : FieldSchema → Option (List String)
  | FieldSchema.mk _ _ _ _ _ _ _ _ _ d _ _ _ _ => d

def FieldSchema.defaultValue : FieldSchema → Option Value
  | FieldSchema.mk _ _ _ _ _ _ _ _ _ _ v _ _ _ => v

def FieldSchema.columns : FieldSchema → List FieldSchema
  | FieldSchema.mk _ _ _ _ _ _ _ _ _ _ _ c _ _ => c

def FieldSchema.minItems : FieldSchema → Option ℤ
  | FieldSchema.mk _ _ _ _ _ _ _ _ _ _ _ _ mi _ => mi

def FieldSchema.maxItems : FieldSchema → Option ℤ
  | FieldSchema.mk _ _ _ _ _ _ _ _ _ _ _ _ _ ma => ma

/-- A reverse dependency graph: field name to the ordered set of fields
that must react when it changes (a Map of Sets in the source, modelled as
an association list with unique keys and duplicate-free value lists). -/
abbrev Graph := List (String × List String)

/-- ParsedSchema (engine-internal, built by parseSchema). -/
structure ParsedSchema where
  inputFields : List FieldSchema
  fieldMap : List (String × FieldSchema)
  dependencyGraph : Graph
  defaultValues : List (String × Value)
  allFields : List FieldSchema

/-
  Field-state engine (src/core/engine/fieldState.ts): watch-field
  derivation.
-/

mutual

/-- extractConditionDependencies from fieldState.ts: recursively collect
the condition's field references into the accumulated watch set (predicate
functions cannot be statically analysed and contribute nothing). -/
def extractConditionDependencies (cond : Cond) (deps : List String) :
    List String :=
  match cond with
  | Cond.absent => deps
  | Cond.func _ => deps
  | Cond.obj fieldK _ _ _ _ _ _ _ _ _ _ andC orC notC =>
    match fieldK with
    | some f => addUniq deps f
    | none =>
        let d1 :=
          match andC with
          | some l => ecdList l deps
          | none => deps
        let d2 :=
          match orC with
          | some l => ecdList l d1
          | none => d1
        match notC with
        | some c => extractConditionDependencies c d2
        | none => d2

/-- forEach over a sub-condition list. -/
def ecdList (l : List Cond) (deps : List String) : List String :=
  match l with
  | [] => deps
  | c :: rest => ecdList rest (extractConditionDependencies c deps)

end

/-- Watch-set contribution of a single field: explicit dependencies, the
three state conditions, and the explicit compute dependencies. -/
def fieldWatchStep (acc : List String) (field : FieldSchema) : List String :=
  let a1 :=
    match field.dependencies with
    | some ds => ds.foldl addUniq acc
    | none => acc
  let a2 := extractConditionDependencies field.visibleWhen a1
  let a3 := extractConditionDependencies field.disabledWhen a2
  let a4 := extractConditionDependencies field.requiredWhen a3
  match field.compute with
  | some c =>
      match c.dependencies with
      | some ds => ds.foldl addUniq a4
      | none => a4
  | none => a4

/-- getWatchFields from fieldState.ts: union, over every parsed field, of
explicit dependencies, condition dependencies and explicit compute
dependencies. -/
def getWatchFields (parsed : ParsedSchema) : List String :=
  parsed.allFields.foldl fieldWatchStep []

/-
  Schema parser (parseSchema / getDownstreamFields / mergeDefaultValues).
-/

/-- The keyword blocklist of extractExpressionVars in the schema parser
(distinct from the one in condition.ts). -/
def parserKeywords : List String :=
  ["true", "false", "null", "undefined", "Math", "Number", "String",
   "Boolean", "Array", "Object", "if", "else", "return", "const",
   "let", "var"]

/-- extractExpressionVars: tokenize the compute expression on the
identifier pattern and drop blocklisted names (no deduplication in the
source). -/
def extractExpressionVars (expr : String) : List String :=
  (identifierMatches expr).filter (fun m => !parserKeywords.contains m)

/-- State threaded through the field-collection traversal. -/
structure CollectSt where
  fieldMap : List (String × FieldSchema)
  defaultValues : List (String × Value)
  allFields : List FieldSchema

/-- The per-field bookkeeping of collectFields: index the field, record it
in the flattened list, and merge its default value. -/
def collectOne (st : CollectSt) (f : FieldSchema) : CollectSt :=
  let st1 : CollectSt :=
    { fieldMap := setFieldKey st.fieldMap f.name f
      defaultValues :=
        match f.defaultValue with
        | some v => setVal st.defaultValues f.name v
        | none => st.defaultValues
      allFields := st.allFields ++ [f] }
  st1
where
  setFieldKey (m : List (String × FieldSchema)) (k : String)
      (v : FieldSchema) : List (String × FieldSchema) :=
    if m.any (fun p => p.1 = k) then
      m.map (fun p => if p.1 = k then (k, v) else p)
    else m ++ [(k, v)]

mutual

/-- collectFields: pre-order traversal of the field tree, recursing into
columns. -/
def collectFields : List FieldSchema → CollectSt → CollectSt
  | [], st => st
  | f :: rest, st => collectFields rest (collectField f st)

/-- Process one field: record it, then recurse into its columns. -/
def collectField : FieldSchema → CollectSt → CollectSt
  | FieldSchema.mk n c h m r vw dw rw cmp deps dv cols mi ma, st =>
      let f := FieldSchema.mk n c h m r vw dw rw cmp deps dv cols mi ma
      collectFields cols (collectOne st f)

end

/-- The forward dependency set of one field, in source insertion order:
explicit dependencies, then the three condition expressions, then the
compute dependencies (explicit, or inferred from the expression). -/
def fieldForwardDeps (f : FieldSchema) : List String :=
  let d0 : List String := []
  let d1 :=
    match f.dependencies with
    | some ds => ds.foldl addUniq d0
    | none => d0
  let d2 :=
    if condTruthy f.visibleWhen then
      (extractDependenciesCond f.visibleWhen).foldl addUniq d1
    else d1
  let d3 :=
    if condTruthy f.disabledWhen then
      (extractDependenciesCond f.disabledWhen).foldl addUniq d2
    else d2
  let d4 :=
    if condTruthy f.requiredWhen then
      (extractDependenciesCond f.requiredWhen).foldl addUniq d3
    else d3
  match f.compute with
  | some c =>
      match c.dependencies with
      | some ds => ds.foldl addUniq d4
      | none => (extractExpressionVars c.expr).foldl addUniq d4
  | none => d4

/-- Record the reverse edge dep -> name in the dependency graph, creating
the key when missing and deduplicating the dependent list (Map/Set
insertion-order semantics). -/
def graphAdd : Graph → String → String → Graph
  | [], dep, name => [(dep, [name])]
  | (k, vs) :: rest, dep, name =>
      if k = dep then (k, addUniq vs name) :: rest
      else (k, vs) :: graphAdd rest dep name

/-- parseSchema: one traversal building the field index, flattened field
list and default values, then the reverse dependency graph over all
collected fields. -/
def parseSchema (fields : List FieldSchema) : ParsedSchema :=
  let st := collectFields fields { fieldMap := [], defaultValues := [], allFields := [] }
  let graph := st.allFields.foldl
    (fun g f => (fieldForwardDeps f).foldl (fun g2 dep => graphAdd g2 dep f.name) g)
    []
  { inputFields := fields
    fieldMap := st.fieldMap
    dependencyGraph := graph
    defaultValues := st.defaultValues
    allFields := st.allFields }

/-- Map.get on the dependency graph. -/
def graphGet (g : Graph) (k : String) : Option (List String) :=
  match g.find? (fun p => p.1 = k) with
  | some p => some p.2
  | none => none

/-- One pass of the BFS inner loop: add every dependent not yet in the
downstream set to both the set and the work queue. -/
def pushNew (acc queue : List String) : List String → List String × List String
  | [] => (acc, queue)
  | d :: ds =>
      if acc.contains d then pushNew acc queue ds
      else pushNew (acc ++ [d]) (queue ++ [d]) ds

/-- Fuel-indexed body of the getDownstreamFields while-loop.  The dequeued
element is skipped when falsy (the empty string), exactly as the
if (!current) continue guard of the source. -/
def downstreamAux (g : Graph) : ℕ → List String → List String → List String
  | 0, _, acc => acc
  | _ + 1, [], acc => acc
  | fuel + 1, current :: rest, acc =>
      if current = "" then downstreamAux g fuel rest acc
      else
        match graphGet g current with
        | none => downstreamAux g fuel rest acc
        | some dependents =>
            let p := pushNew acc rest dependents
            downstreamAux g fuel p.2 p.1

/-- Concatenation of every dependent list in the graph (a bound on how many
distinct nodes the BFS can ever add). -/
def allTargets (g : Graph) : List String :=
  g.foldr (fun p acc => p.2 ++ acc) []

/-- Sufficient fuel for the BFS: one dequeue for the start node plus one
for every distinct node that can ever be enqueued. -/
def downstreamFuel (g : Graph) : ℕ :=
  1 + (allTargets g).length

/-- getDownstreamFields: breadth-first closure over the reverse edges
starting at fieldName. -/
def getDownstreamFields (fieldName : String) (dependencyGraph : Graph) :
    List String :=
  downstreamAux dependencyGraph (downstreamFuel dependencyGraph)
    [fieldName] []

/-- The reverse-edge relation of the graph: y is a direct dependent of x. -/
def edge (g : Graph) (x y : String) : Prop :=
  y ∈ (graphGet g x).getD []

/-- Reachability along one or more reverse dependency edges. -/
inductive ReachesPlus (g : Graph) : String → String → Prop where
  | single {x y : String} : edge g x y → ReachesPlus g x y
  | step {x y z : String} : edge g x y → ReachesPlus g y z → ReachesPlus g x z

/-
  Validation-schema builder (src/core/validation/valibotAdapter.ts).

  A constructed valibot schema is modelled by its acceptance predicate
  (does this value parse without issues); running the validator surfaces
  the names of the top-level fields whose value is rejected.
-/

/-- A constructed field validator: acceptance predicate over the value. -/
abbrev Validator := Value → Bool

/-- isFieldRequired: a static required rule wins, otherwise requiredWhen is
evaluated against the current values. -/
def isFieldRequired (field : FieldSchema) (values : ValMap) : Bool :=
  if field.rules.any (fun r => r matches Rule.required) then true
  else if condTruthy field.requiredWhen then
    evaluateCondition field.requiredWhen values
  else false

/-- v.string() -/
def vString : Validator
  | Value.str _ => true
  | _ => false

/-- v.number(): a number other than NaN. -/
def vNumber : Validator
  | Value.num n => !n.isNaN
  | _ => false

/-- v.boolean() -/
def vBoolean : Validator
  | Value.bool _ => true
  | _ => false

/-- v.undefined_() -/
def vUndefined : Validator
  | Value.undef => true
  | _ => false

/-- v.null_() -/
def vNull : Validator
  | Value.null => true
  | _ => false

/-- v.array(v.unknown()) -/
def vArrayUnknown : Validator
  | Value.arr _ => true
  | _ => false

/-- The required check shared by scalar categories:
val !== undefined && val !== null && val !== ''. -/
def notEmptyScalar (v : Value) : Bool :=
  !(jsStrictEq v Value.undef || jsStrictEq v Value.null ||
    jsStrictEq v (Value.str ""))

/-- The guard letting non-required rules pass on absent values:
val === undefined || val === null || val === ''. -/
def absentForRules (v : Value) : Bool :=
  jsStrictEq v Value.undef || jsStrictEq v Value.null ||
    jsStrictEq v (Value.str "")

/-- String(val).length for the values the text base schema admits. -/
def jsStringLength (v : Value) : ℤ :=
  match v with
  | Value.str s => (s.length : ℤ)
  | Value.undef => 9
  | Value.null => 4
  | _ => 0

/-- Number(val) as used by the numeric min/max checks. -/
def jsNumberOf (v : Value) : JsNum := toNumber v

/-- Per-rule check of the text branch (rules carrying opaque predicates in
the source are outside the modelled rule type and hit the default case). -/
def textRuleCheck (r : Rule) : Validator :=
  match r with
  | Rule.minLength n => fun v => absentForRules v || jsStringLength v ≥ n
  | Rule.maxLength n => fun v => absentForRules v || jsStringLength v ≤ n
  | _ => fun _ => true

/-- Per-rule check of the numeric branch. -/
def numberRuleCheck (r : Rule) : Validator :=
  match r with
  | Rule.ruleMin q => fun v =>
      jsStrictEq v Value.undef || jsStrictEq v Value.null ||
        JsNum.geb (jsNumberOf v) (JsNum.finite q)
  | Rule.ruleMax q => fun v =>
      jsStrictEq v Value.undef || jsStrictEq v Value.null ||
        JsNum.leb (jsNumberOf v) (JsNum.finite q)
  | _ => fun _ => true

/-- Record-shape update: each assignment replaces an existing key in place
or appends. -/
def shapeSet {α : Type} (shape : List (String × α)) (k : String)
    (v : α) : List (String × α) :=
  if shape.any (fun p => p.1 = k) then
    shape.map (fun p => if p.1 = k then (k, v) else p)
  else shape ++ [(k, v)]

/-- Sequential record assignments. -/
def shapeAppend {α : Type} (base more : List (String × α)) :
    List (String × α) :=
  more.foldl (fun s p => shapeSet s p.1 p.2) base

/-- v.object(rowShape) acceptance: the row must be a plain object and every
shaped key's value must pass its validator (missing keys read as
undefined; unknown keys are ignored). -/
def rowAccepts (shape : List (String × Validator)) (row : Value) : Bool :=
  match row with
  | Value.obj l => shape.all (fun p => p.2 (getVal l p.1))
  | _ => false

mutual

/-- buildFieldSchema: the component-category dispatch of the adapter,
returning the acceptance predicate of the constructed valibot schema. -/
def buildFieldSchema : FieldSchema → ValMap → Validator
  | FieldSchema.mk nm cp hd mp rl vw dw rw cmp deps dv cols mi ma, values =>
  let field := FieldSchema.mk nm cp hd mp rl vw dw rw cmp deps dv cols mi ma
  let isRequired := isFieldRequired field values
  let isMultiple := field.multiple
  if (field.component = "Autocomplete" ∨ field.component = "Select") ∧
      isMultiple then
    fun v =>
      (vString v || vNumber v || vBoolean v || vUndefined v || vNull v ||
        vArrayUnknown v) &&
      (if isRequired then
        (match v with
         | Value.arr l => decide (l.length > 0)
         | _ => false)
       else true)
  else if field.component = "Radio" ∨ field.component = "Select" ∨
      field.component = "Autocomplete" then
    fun v =>
      (vString v || vNumber v || vBoolean v || vUndefined v || vNull v) &&
      (if isRequired then notEmptyScalar v else true)
  else if field.component = "Text" ∨ field.component = "Password" ∨
      field.component = "Textarea" ∨ field.component = "Date" ∨
      field.component = "Time" ∨ field.component = "DateTime" then
    fun v =>
      (vString v || vUndefined v || vNull v) &&
      (if isRequired then notEmptyScalar v else true) &&
      field.rules.all (fun r => textRuleCheck r v)
  else if field.component = "Number" ∨ field.component = "Slider" ∨
      field.component = "Rating" then
    fun v =>
      (vNumber v || vUndefined v || vNull v ||
        (match v with
         | Value.str s => !(jsNumber s).isNaN
         | _ => false)) &&
      (if isRequired then
        (match v with
         | Value.undef => false
         | Value.null => false
         | Value.num n => !n.isNaN
         | _ => true)
       else true) &&
      field.rules.all (fun r => numberRuleCheck r v)
  else if field.component = "Checkbox" ∨ field.component = "Switch" then
    fun v =>
      (vBoolean v || vUndefined v || vNull v) &&
      (if isRequired then jsStrictEq v (Value.bool true) else true)
  else if field.component = "FormList" then
    let rowShape := buildRowShape cols values
    let minI := field.minItems.getD 0
    fun v =>
      (match v with
       | Value.arr rows =>
           rows.all (fun row => rowAccepts rowShape row)
       | _ => false) &&
      (if minI > 0 then
        (match v with
         | Value.arr rows => decide ((rows.length : ℤ) ≥ minI)
         | _ => false)
       else true) &&
      (match field.maxItems with
       | some maxI =>
           (match v with
            | Value.arr rows => decide ((rows.length : ℤ) ≤ maxI)
            | _ => false)
       | none => true)
  else if field.component = "Upload" then
    let arrayMin :=
      match field.rules.find? (fun r => r matches Rule.arrayRule _ _) with
      | some (Rule.arrayRule (some mi) _) => mi
      | some (Rule.arrayRule none _) => if isRequired then 1 else 0
      | _ => if isRequired then 1 else 0
    if arrayMin > 0 then
      fun v =>
        (vArrayUnknown v || vUndefined v || vNull v) &&
        (match v with
         | Value.arr l => decide ((l.length : ℤ) ≥ arrayMin)
         | _ => false)
    else
      fun v => vArrayUnknown v || vUndefined v || vNull v
  else
    if isRequired then fun v => notEmptyScalar v
    else fun _ => true

/-- Row shape of a FormList: per-column validators, flattening the columns
of a nested Group into the row. -/
def buildRowShape (cols : List FieldSchema) (values : ValMap) :
    List (String × Validator) :=
  match cols with
  | [] => []
  | FieldSchema.mk n c h m r vw dw rw cmp deps dv cc mi ma :: rest =>
      let col := FieldSchema.mk n c h m r vw dw rw cmp deps dv cc mi ma
      let here :=
        if c = "Group" then buildGroupShape cc values
        else [(n, buildFieldSchema col values)]
      shapeAppend here (buildRowShape rest values)

/-- Validators of the columns inside a Group column. -/
def buildGroupShape (cols : List FieldSchema) (values : ValMap) :
    List (String × Validator) :=
  match cols with
  | [] => []
  | FieldSchema.mk n c h m r vw dw rw cmp deps dv cc mi ma :: rest =>
      let col := FieldSchema.mk n c h m r vw dw rw cmp deps dv cc mi ma
      (n, buildFieldSchema col values) :: buildGroupShape rest values

end

/-- The accept-anything validator v.optional(v.unknown()). -/
def acceptAll : Validator := fun _ => true

/-
  Structured view of the constructed valibot schemas, needed to reproduce
  the nested issue paths that createDynamicResolver dot-joins (e.g.
  list.0.col for a failing FormList column).  Every constructed schema is
  either a leaf (its rejection is one issue at its own path) or a FormList
  schema pipe(v.array(v.object(rowShape)), length checks), whose row and
  column issues carry index and key path segments.
-/

/-- A constructed valibot schema with its path-relevant structure. -/
inductive VSchema where
  | leaf : (Value → Bool) → VSchema
  | listSchema : List (String × VSchema) → ℤ → Option ℤ → VSchema

mutual

/-- The structured counterpart of buildFieldSchema: a FormList field keeps
its row shape and its minItems (defaulted to 0) / maxItems checks; every
other component category validates as a leaf predicate. -/
def buildFieldVSchema : FieldSchema → ValMap → VSchema
  | FieldSchema.mk nm cp hd mp rl vw dw rw cmp deps dv cols mi ma, values =>
      let field := FieldSchema.mk nm cp hd mp rl vw dw rw cmp deps dv cols
        mi ma
      if cp = "FormList" then
        VSchema.listSchema (buildRowVShape cols values) (mi.getD 0) ma
      else
        VSchema.leaf (buildFieldSchema field values)

/-- Structured row shape of a FormList: per-column schemas, flattening the
columns of a nested Group into the row (Record assignment semantics). -/
def buildRowVShape : List FieldSchema → ValMap → List (String × VSchema)
  | [], _ => []
  | FieldSchema.mk n c h m r vw dw rw cmp deps dv cc mi ma :: rest,
      values =>
      let col := FieldSchema.mk n c h m r vw dw rw cmp deps dv cc mi ma
      let here :=
        if c = "Group" then buildGroupVShape cc values
        else [(n, buildFieldVSchema col values)]
      shapeAppend here (buildRowVShape rest values)

/-- Structured schemas of the columns inside a Group column. -/
def buildGroupVShape : List FieldSchema → ValMap → List (String × VSchema)
  | [], _ => []
  | FieldSchema.mk n c h m r vw dw rw cmp deps dv cc mi ma :: rest,
      values =>
      let col := FieldSchema.mk n c h m r vw dw rw cmp deps dv cc mi ma
      (n, buildFieldVSchema col values) :: buildGroupVShape rest values

end

mutual

/-- Nesting depth of a structured schema (fuel bound for issue
collection). -/
def vsDepth : VSchema → ℕ
  | VSchema.leaf _ => 1
  | VSchema.listSchema shape _ _ => 1 + vshapeDepth shape

/-- Largest nesting depth among a row shape's schemas. -/
def vshapeDepth : List (String × VSchema) → ℕ
  | [] => 0
  | (_, vs) :: rest => max (vsDepth vs) (vshapeDepth rest)

end

/-- A row-index path segment, as valibot records it. -/
def indexSeg (i : ℕ) : String := Nat.repr i

/-- Array-level issues of the FormList pipe checks (both at the array's
own path): the minItems check when minItems is positive, and the maxItems
check when maxItems is finite. -/
def vLengthIssues (minI : ℤ) (maxI : Option ℤ) (len : ℕ) :
    List (List String) :=
  (if minI > 0 ∧ ¬ ((len : ℤ) ≥ minI) then [([] : List String)] else []) ++
    (match maxI with
     | some m => if ¬ ((len : ℤ) ≤ m) then [([] : List String)] else []
     | none => [])

/-- Relative issue paths (as segment lists) of validating a value against
a structured schema, mirroring safeParse: a rejected leaf issues at its
own path; a FormList issues at its own path when the value is not an
array, per-row at the row index when a row is not an object, per-column
at index.key (recursively), and -- only when every row parsed, since
issues leave the array dataset untyped and skip the pipe -- at its own
path for a failing length check.  Recursion is fuel-indexed by the schema
nesting depth, which vsDepth always bounds. -/
def vIssueSegsF : ℕ → VSchema → Value → List (List String)
  | 0, _, _ => []
  | _ + 1, VSchema.leaf pred, v => if pred v then [] else [[]]
  | fuel + 1, VSchema.listSchema shape minI maxI, v =>
      match v with
      | Value.arr rows =>
          let rowIss := rows.enum.flatMap (fun pr =>
            match pr.2 with
            | Value.obj l => shape.flatMap (fun q =>
                (vIssueSegsF fuel q.2 (getVal l q.1)).map
                  (fun segs => indexSeg pr.1 :: q.1 :: segs))
            | _ => [[indexSeg pr.1]])
          rowIss ++
            (if rowIss.isEmpty then vLengthIssues minI maxI rows.length
             else [])
      | _ => [[]]

/-- Issue paths of a structured schema at its own adequate fuel. -/
def vIssueSegs (vs : VSchema) (v : Value) : List (List String) :=
  vIssueSegsF (vsDepth vs) vs v

/-- buildValibotSchema: the top-level object shape.  Hidden fields and
fields whose visibleWhen currently evaluates false map to
v.optional(v.unknown()) (an accept-everything leaf); Group fields
contribute nothing; every other field gets its constructed schema. -/
def buildVShapeGo (values : ValMap) (shape : List (String × VSchema)) :
    List FieldSchema → List (String × VSchema)
  | [] => shape
  | field :: rest =>
      if field.hidden || field.component = "Hidden" then
        buildVShapeGo values
          (shapeSet shape field.name (VSchema.leaf acceptAll)) rest
      else if field.component = "Group" then
        buildVShapeGo values shape rest
      else if condTruthy field.visibleWhen &&
          !evaluateCondition field.visibleWhen values then
        buildVShapeGo values
          (shapeSet shape field.name (VSchema.leaf acceptAll)) rest
      else
        buildVShapeGo values
          (shapeSet shape field.name (buildFieldVSchema field values)) rest

/-- The object shape built by buildValibotSchema for the parsed schema and
the current values. -/
def buildValibotSchema (parsed : ParsedSchema) (values : ValMap) :
    List (String × VSchema) :=
  buildVShapeGo values [] parsed.inputFields

/-- Dot-joining of issue path segments, as createDynamicResolver performs
it. -/
def dotJoin : List String → String
  | [] => ""
  | [s] => s
  | s :: rest => s ++ "." ++ dotJoin rest

/-- Running the built validator (safeParse inside createDynamicResolver):
the dot-joined paths at which validation fails, nested FormList row and
column paths included. -/
def resolverErrorPaths (parsed : ParsedSchema) (values input : ValMap) :
    List String :=
  (buildValibotSchema parsed values).flatMap
    (fun p => (vIssueSegs p.2 (getVal input p.1)).map
      (fun segs => dotJoin (p.1 :: segs)))

/-
  Concrete instances used by the witnesses and counterexamples.
-/

/-- A required boolean field named agree. -/
def agreeField : FieldSchema :=
  FieldSchema.mk "agree" "Checkbox" false false [Rule.required]
    Cond.absent Cond.absent Cond.absent none none none [] none none

/-- The condition field t equals true. -/
def tIsTrue : Cond :=
  Cond.obj (some "t") (some (Value.bool true)) none none none none none
    none none none none none none none

/-- A required text field visible only when t is true. -/
def gatedField : FieldSchema :=
  FieldSchema.mk "x" "Text" false false [Rule.required]
    tIsTrue Cond.absent Cond.absent none none none [] none none

/-- A required text column named c, visible only when t is true, meant to
sit inside a FormList. -/
def colC : FieldSchema :=
  FieldSchema.mk "c" "Text" false false [Rule.required]
    tIsTrue Cond.absent Cond.absent none none none [] none none

/-- A FormList field named list whose single column is colC. -/
def listField : FieldSchema :=
  FieldSchema.mk "list" "FormList" false false []
    Cond.absent Cond.absent Cond.absent none none none [colC] none none

/-- A computed field whose compute configuration omits the explicit
dependency list (dependencies must be inferred from the expression a). -/
def derivedComputeField : FieldSchema :=
  FieldSchema.mk "total" "Number" false false []
    Cond.absent Cond.absent Cond.absent
    (some { expr := "a", dependencies := none, precision := none,
            roundMode := none })
    none none [] none none

/-- A computed field with the explicit dependency list x, y. -/
def explicitComputeField : FieldSchema :=
  FieldSchema.mk "total" "Number" false false []
    Cond.absent Cond.absent Cond.absent
    (some { expr := "x * y", dependencies := some ["x", "y"],
            precision := none, roundMode := none })
    none none [] none none

/-- The chain graph: b depends on a, c depends on b. -/
def chainGraph : Graph := [("a", ["b"]), ("b", ["c"])]

/-- A graph routing through the empty-string field name. -/
def emptyNameGraph : Graph := [("a", [""]), ("", ["b"])]

/-- A cyclic graph: a and b depend on each other. -/
def cycleGraph : Graph := [("a", ["b"]), ("b", ["a"])]

/-
  Helper lemmas about the ordered-set primitives.
-/

theorem mem_addUniq_of_mem {l : List String} {a : String} (x : String)
    (h : a ∈ l) : a ∈ addUniq l x := by
  unfold addUniq
  split
  · exact h
  · exact List.mem_append_left _ h

theorem mem_addUniq_self (l : List String) (x : String) : x ∈ addUniq l x := by
  unfold addUniq
  split
  · next h => exact List.mem_of_elem_eq_true h
  · exact List.mem_append_right _ (List.mem_singleton.mpr rfl)

theorem nodup_addUniq {l : List String} (x : String) (h : l.Nodup) :
    (addUniq l x).Nodup := by
  unfold addUniq
  split
  · exact h
  · rename_i hc
    rw [List.nodup_append]
    refine ⟨h, List.nodup_singleton x, ?_⟩
    intro a ha hb
    rw [List.mem_singleton] at hb
    subst hb
    exact hc (List.elem_eq_true_of_mem ha)

theorem mem_foldl_addUniq_of_mem_acc {acc : List String} {a : String}
    (l : List String) (h : a ∈ acc) : a ∈ l.foldl addUniq acc := by
  induction l generalizing acc with
  | nil => exact h
  | cons x xs ih => exact ih (mem_addUniq_of_mem x h)

theorem mem_foldl_addUniq_of_mem {l : List String} {a : String}
    (acc : List String) (h : a ∈ l) : a ∈ l.foldl addUniq acc := by
  induction l generalizing acc with
  | nil => cases h
  | cons x xs ih =>
      rcases List.mem_cons.mp h with h1 | h2
      · subst h1
        exact mem_foldl_addUniq_of_mem_acc xs (mem_addUniq_self acc a)
      · exact ih _ h2

theorem nodup_foldl_addUniq {acc : List String} (l : List String)
    (h : acc.Nodup) : (l.foldl addUniq acc).Nodup := by
  induction l generalizing acc with
  | nil => exact h
  | cons x xs ih => exact ih (nodup_addUniq x h)

theorem dedupFirst_nodup (l : List String) : (dedupFirst l).Nodup :=
  nodup_foldl_addUniq l List.nodup_nil

/-
  C1 -- C4 and C8: the compute evaluator and the condition evaluator.
-/

/-- C1: for every expression, value snapshot and dependency list, if some
dependency's snapshot value is undefined, null, NaN, or an empty or
whitespace-only string (that is, fails isValidComputeValue), then
evaluateCompute returns undefined without evaluating the expression. -/
theorem evaluateCompute_undef_of_invalid_dep (expr : CExpr) (values : ValMap)
    (dependencies : List String) (precision : Option ℤ)
    (roundMode : RoundMode)
    (h : dependencies.any
      (fun dep => !isValidComputeValue (getVal values dep)) = true) :
    evaluateCompute expr values dependencies precision roundMode
      = Value.undef := by
  unfold evaluateCompute
  rw [h]
  rfl

/-- C1 witness: evaluateCompute of price * quantity against the snapshot
with price = 10 and missing quantity, with dependencies price and
quantity, is undefined. -/
theorem evaluateCompute_undef_of_invalid_dep_witness :
    (["price", "quantity"].any (fun dep =>
      !isValidComputeValue
        (getVal [("price", Value.num (JsNum.finite 10))] dep)) = true) ∧
    evaluateCompute (CExpr.mul (CExpr.var "price") (CExpr.var "quantity"))
      [("price", Value.num (JsNum.finite 10))] ["price", "quantity"]
      none RoundMode.round = Value.undef :=
  ⟨by decide, evaluateCompute_undef_of_invalid_dep _ _ _ _ _ (by decide)⟩

/-- C2 counterexample: the source evaluateCondition returns true, not
false, on an unrecognized condition shape (an object carrying none of the
field / and / or / not keys), here the empty object against the empty
snapshot. -/
theorem evaluateCondition_unrecognized_cex :
    ¬ (evaluateCondition
        (Cond.obj none none none none none none none none none none none
          none none none) [] = false) := by
  decide

/-- C2 amended: for every value snapshot and every condition object of an
unrecognized shape (no field key, no and / or / not key, whatever other
keys it carries), evaluateCondition returns true -- the same result as for
an absent condition -- and in particular does not throw. -/
theorem evaluateCondition_unrecognized_true
    (eqV neV : Option Value) (gtV gteV ltV lteV : Option JsNum)
    (inV notInV : Option Value) (emptyV notEmptyV : Option Bool)
    (values : ValMap) :
    evaluateCondition (Cond.obj none eqV neV gtV gteV ltV lteV inV notInV
      emptyV notEmptyV none none none) values = true :=
  rfl

/-- C3: for every expression, snapshot and dependency list whose
dependencies are all valid, if the raw evaluation result is a non-finite
number (NaN or an infinity), evaluateCompute returns undefined. -/
theorem evaluateCompute_undef_of_nonfinite (expr : CExpr) (values : ValMap)
    (dependencies : List String) (precision : Option ℤ)
    (roundMode : RoundMode) (n : JsNum)
    (hvalid : dependencies.all
      (fun dep => isValidComputeValue (getVal values dep)) = true)
    (heval : evalExpr expr (safeValues values dependencies)
      = some (Value.num n))
    (hnf : n.isFinite = false) :
    evaluateCompute expr values dependencies precision roundMode
      = Value.undef := by
  unfold evaluateCompute
  have hany : dependencies.any
      (fun dep => !isValidComputeValue (getVal values dep)) = false := by
    rw [List.any_eq_false]
    intro x hx
    have := List.all_eq_true.mp hvalid x hx
    simp [this]
  rw [hany]
  simp only [Bool.false_eq_true, if_false, heval]
  simp [postProcess, hnf]

/-- C3 witness: evaluateCompute of a / b with a = 1 and b = 0 (all
dependencies valid, raw result +Infinity) is undefined. -/
theorem evaluateCompute_undef_of_nonfinite_witness :
    (["a", "b"].all (fun dep => isValidComputeValue
      (getVal [("a", Value.num (JsNum.finite 1)),
               ("b", Value.num (JsNum.finite 0))] dep)) = true) ∧
    (JsNum.posInf.isFinite = false) ∧
    evaluateCompute (CExpr.div (CExpr.var "a") (CExpr.var "b"))
      [("a", Value.num (JsNum.finite 1)), ("b", Value.num (JsNum.finite 0))]
      ["a", "b"] none RoundMode.round = Value.undef :=
  ⟨by decide, by decide,
    evaluateCompute_undef_of_nonfinite _ _ _ _ _ JsNum.posInf
      (by decide) rfl (by decide)⟩

/-- C4 counterexample: extractDependencies of Math.max(a,b) is not the set
containing exactly a and b: the tokenizer also matches the property name
max, which is absent from the blocklist. -/
theorem extractDependencies_math_max_cex :
    "max" ∈ extractDependencies "Math.max(a,b)" ∧
    ¬ (extractDependencies "Math.max(a,b)" = ["a", "b"]) := by
  constructor
  · decide
  · decide

/-- C4 amended: extractDependencies returns the deduplicated identifiers
of the expression minus the fixed blocklist, where every maximal
identifier token is matched -- including property names appearing after a
dot.  extractDependencies of price * quantity + tax is exactly price,
quantity, tax; extractDependencies of Math.max(a,b) is exactly max, a, b
(Math excluded, max retained).  The result is always duplicate-free. -/
theorem extractDependencies_spec :
    (∀ expr : String, (extractDependencies expr).Nodup) ∧
    extractDependencies "price * quantity + tax"
      = ["price", "quantity", "tax"] ∧
    extractDependencies "Math.max(a,b)" = ["max", "a", "b"] :=
  ⟨fun expr => dedupFirst_nodup _, by decide, by decide⟩

/-- C8: evaluateCompute of the identity expression a with a = 12.3456 and
precision 2 returns 12.35 under round, 12.34 under floor, and 12.35 under
ceil. -/
theorem evaluateCompute_rounding :
    evaluateCompute (CExpr.var "a")
      [("a", Value.num (JsNum.finite (123456 / 10000)))] ["a"]
      (some 2) RoundMode.round = Value.num (JsNum.finite (1235 / 100)) ∧
    evaluateCompute (CExpr.var "a")
      [("a", Value.num (JsNum.finite (123456 / 10000)))] ["a"]
      (some 2) RoundMode.floor = Value.num (JsNum.finite (1234 / 100)) ∧
    evaluateCompute (CExpr.var "a")
      [("a", Value.num (JsNum.finite (123456 / 10000)))] ["a"]
      (some 2) RoundMode.ceil = Value.num (JsNum.finite (1235 / 100)) := by
  refine ⟨?_, ?_, ?_⟩
  · rw [show evaluateCompute (CExpr.var "a")
        [("a", Value.num (JsNum.finite (123456 / 10000)))] ["a"]
        (some 2) RoundMode.round
        = Value.num (JsNum.finite (jsToFixed (123456 / 10000) 2)) from rfl]
    have hf : ⌊(123456 / 10000 : ℚ) * (10 : ℚ) ^ (2 : ℕ) + 1/2⌋
        = (1235 : ℤ) := by
      rw [Int.floor_eq_iff]
      norm_num
    unfold jsToFixed
    rw [hf]
    norm_num
  · rw [show evaluateCompute (CExpr.var "a")
        [("a", Value.num (JsNum.finite (123456 / 10000)))] ["a"]
        (some 2) RoundMode.floor
        = Value.num (JsNum.div (jsFloor (JsNum.mul
            (JsNum.finite (123456 / 10000))
            (JsNum.finite ((10 : ℚ) ^ (2 : ℕ)))))
            (JsNum.finite ((10 : ℚ) ^ (2 : ℕ)))) from rfl]
    have hfl : ⌊(123456 / 10000 : ℚ) * (10 : ℚ) ^ (2 : ℕ)⌋ = (1234 : ℤ) := by
      rw [Int.floor_eq_iff]
      norm_num
    simp only [JsNum.mul, jsFloor, hfl, JsNum.div]
    norm_num
  · rw [show evaluateCompute (CExpr.var "a")
        [("a", Value.num (JsNum.finite (123456 / 10000)))] ["a"]
        (some 2) RoundMode.ceil
        = Value.num (JsNum.div (jsCeil (JsNum.mul
            (JsNum.finite (123456 / 10000))
            (JsNum.finite ((10 : ℚ) ^ (2 : ℕ)))))
            (JsNum.finite ((10 : ℚ) ^ (2 : ℕ)))) from rfl]
    have hcl : ⌈(123456 / 10000 : ℚ) * (10 : ℚ) ^ (2 : ℕ)⌉ = (1235 : ℤ) := by
      rw [Int.ceil_eq_iff]
      norm_num
    simp only [JsNum.mul, jsCeil, hcl, JsNum.div]
    norm_num

/-
  C6 and C7: the validation-schema builder.
-/

/-- C6: for every boolean-category field (Checkbox or Switch component)
that is required -- statically or via requiredWhen evaluating true against
the current values, i.e. isFieldRequired holds -- the built validator
accepts the field's value exactly when it is strictly the boolean true. -/
theorem boolean_required_accepts_iff_true (field : FieldSchema)
    (values : ValMap) (v : Value)
    (hcomp : field.component = "Checkbox" ∨ field.component = "Switch")
    (hreq : isFieldRequired field values = true) :
    buildFieldSchema field values v = true ↔ v = Value.bool true := by
  cases field with
  | mk nm cp hd mp rl vw dw rw cmp deps dv cols mi ma =>
    simp only [FieldSchema.component] at hcomp
    rcases hcomp with h | h <;> subst h <;> cases v <;>
      simp [buildFieldSchema, FieldSchema.component, FieldSchema.multiple,
        hreq, vString, vNumber, vBoolean, vUndefined, vNull, vArrayUnknown,
        jsStrictEq]

/-- C6 witness: the required Checkbox field agree, against the snapshot
with agree = false, rejects the value false (producing the validation
error at path agree in the resolver). -/
theorem boolean_required_accepts_iff_true_witness :
    (agreeField.component = "Checkbox" ∨ agreeField.component = "Switch") ∧
    isFieldRequired agreeField [("agree", Value.bool false)] = true ∧
    (buildFieldSchema agreeField [("agree", Value.bool false)]
      (Value.bool false) = true ↔ Value.bool false = Value.bool true) :=
  ⟨Or.inl rfl, by decide,
    boolean_required_accepts_iff_true agreeField
      [("agree", Value.bool false)] (Value.bool false)
      (Or.inl rfl) (by decide)⟩

theorem mem_shapeSet {α : Type} {shape : List (String × α)} {k : String}
    {v : α} {p : String × α} (h : p ∈ shapeSet shape k v) :
    p ∈ shape ∨ p = (k, v) := by
  unfold shapeSet at h
  split at h
  · rcases List.mem_map.mp h with ⟨q, hq, hqe⟩
    by_cases hk : q.1 = k
    · right
      rw [← hqe]
      simp [hk]
    · left
      rw [← hqe]
      simpa [hk] using hq
  · rcases List.mem_append.mp h with h1 | h1
    · exact Or.inl h1
    · exact Or.inr (List.mem_singleton.mp h1)

/-- If no field in the remaining list carries the key k, the entries of the
evolving shape at key k are never touched: the accept-everything property
at k is preserved to the final shape. -/
theorem vshape_key_leaf_preserved (values : ValMap)
    (fields : List FieldSchema) (shape : List (String × VSchema))
    (k : String)
    (hnames : ∀ g ∈ fields, g.name ≠ k)
    (hA : ∀ p ∈ shape, p.1 = k → p.2 = VSchema.leaf acceptAll) :
    ∀ p ∈ buildVShapeGo values shape fields, p.1 = k →
      p.2 = VSchema.leaf acceptAll := by
  induction fields generalizing shape with
  | nil => simpa [buildVShapeGo] using hA
  | cons g rest ih =>
      have hg : g.name ≠ k := hnames g (List.mem_cons_self g rest)
      have hrest : ∀ g2 ∈ rest, g2.name ≠ k := fun g2 h2 =>
        hnames g2 (List.mem_cons_of_mem _ h2)
      have hset : ∀ val : VSchema,
          ∀ p ∈ shapeSet shape g.name val, p.1 = k →
            p.2 = VSchema.leaf acceptAll := by
        intro val p hp hpk
        rcases mem_shapeSet hp with h1 | h1
        · exact hA p h1 hpk
        · rw [h1] at hpk
          exact absurd hpk hg
      simp only [buildVShapeGo]
      split
      · exact ih _ hrest (hset _)
      · split
        · exact ih _ hrest hA
        · split
          · exact ih _ hrest (hset _)
          · exact ih _ hrest (hset _)

/-- The top-level field whose visibleWhen evaluates false gets, and keeps,
the accept-everything leaf at its name in the built shape (given the
top-level names are duplicate-free and its name is not yet a key). -/
theorem invisible_ventry_leaf (values : ValMap)
    (fields : List FieldSchema) (shape : List (String × VSchema))
    (f : FieldSchema)
    (hmem : f ∈ fields)
    (hnodup : (fields.map FieldSchema.name).Nodup)
    (hshape : ∀ p ∈ shape, p.1 ≠ f.name)
    (hvis : condTruthy f.visibleWhen = true)
    (hfalse : evaluateCondition f.visibleWhen values = false) :
    ∀ p ∈ buildVShapeGo values shape fields, p.1 = f.name →
      p.2 = VSchema.leaf acceptAll := by
  induction fields generalizing shape with
  | nil => cases hmem
  | cons g rest ih =>
      have hnd : (∀ x ∈ rest, ¬ x.name = g.name) ∧
          (rest.map FieldSchema.name).Nodup := by
        simpa using hnodup
      rcases List.mem_cons.mp hmem with hfg | hmem2
      · subst hfg
        have hnames_rest : ∀ g2 ∈ rest, g2.name ≠ f.name := fun g2 h2 =>
          hnd.1 g2 h2
        have hset_leaf :
            ∀ p ∈ shapeSet shape f.name (VSchema.leaf acceptAll),
              p.1 = f.name → p.2 = VSchema.leaf acceptAll := by
          intro p hp hpk
          rcases mem_shapeSet hp with h1 | h1
          · exact absurd hpk (hshape p h1)
          · rw [h1]
        simp only [buildVShapeGo]
        split
        · exact vshape_key_leaf_preserved values rest _ f.name
            hnames_rest hset_leaf
        · split
          · exact vshape_key_leaf_preserved values rest _ f.name
              hnames_rest (fun p hp hpk => absurd hpk (hshape p hp))
          · split
            · exact vshape_key_leaf_preserved values rest _ f.name
                hnames_rest hset_leaf
            · rename_i hcond
              rw [hvis, hfalse] at hcond
              exact absurd rfl hcond
      · have hne : g.name ≠ f.name := fun heq => hnd.1 f hmem2 heq.symm
        have hstep : ∀ val : VSchema,
            ∀ p ∈ shapeSet shape g.name val, p.1 ≠ f.name := by
          intro val p hp
          rcases mem_shapeSet hp with h1 | h1
          · exact hshape p h1
          · rw [h1]
            exact hne
        simp only [buildVShapeGo]
        split
        · exact ih _ hmem2 hnd.2 (hstep _)
        · split
          · exact ih _ hmem2 hnd.2 hshape
          · split
            · exact ih _ hmem2 hnd.2 (hstep _)
            · exact ih _ hmem2 hnd.2 (hstep _)

/-- A dot-joined path of two or more segments contains a dot. -/
theorem dot_mem_dotJoin (a s : String) (rest : List String) :
    '.' ∈ (dotJoin (a :: s :: rest)).data := by
  show '.' ∈ ((a ++ ".") ++ dotJoin (s :: rest)).data
  have h : ((a ++ ".") ++ dotJoin (s :: rest)).data
      = (a.data ++ ['.']) ++ (dotJoin (s :: rest)).data := rfl
  rw [h]
  exact List.mem_append_left _
    (List.mem_append_right _ (List.mem_singleton.mpr rfl))

/-- C7 counterexample: the original claim fails for nested fields.  The
required column c inside the FormList field list has visibleWhen
evaluating false against the build values, yet validating a one-row list
whose row omits c produces an error at its dot path list.0.c --
buildFieldSchema applies no visibility gating to FormList columns. -/
theorem invisible_nested_column_error_cex :
    colC ∈ (parseSchema [listField]).allFields ∧
    condTruthy colC.visibleWhen = true ∧
    evaluateCondition colC.visibleWhen [("t", Value.bool false)] = false ∧
    "list.0.c" ∈ resolverErrorPaths (parseSchema [listField])
      [("t", Value.bool false)] [("list", Value.arr [Value.obj []])] :=
  ⟨show colC ∈ [listField, colC] from
      List.mem_cons_of_mem _ (List.mem_singleton.mpr rfl),
    by decide, by decide, by decide⟩

/-- C7 amended: for every top-level field whose visibleWhen condition
evaluates false against the values the validator is built from -- the
visibility exemption happens only in buildValibotSchema's top-level loop,
so nested FormList columns are not covered -- and for every input the
validator is then run on, no error is produced at that field's path, even
if the field would otherwise violate a required rule (its top-level names
being duplicate-free per the schema invariant, and its own name being
dot-free so that it cannot collide with a nested dot-joined path). -/
theorem invisible_top_field_no_error (parsed : ParsedSchema)
    (values input : ValMap) (f : FieldSchema)
    (hmem : f ∈ parsed.inputFields)
    (hnodup : (parsed.inputFields.map FieldSchema.name).Nodup)
    (hdot : '.' ∉ f.name.data)
    (hvis : condTruthy f.visibleWhen = true)
    (hfalse : evaluateCondition f.visibleWhen values = false) :
    f.name ∉ resolverErrorPaths parsed values input := by
  intro herr
  unfold resolverErrorPaths at herr
  rcases List.mem_flatMap.mp herr with ⟨p, hp, hpath⟩
  rcases List.mem_map.mp hpath with ⟨segs, hsegs, hjoin⟩
  by_cases hk : p.1 = f.name
  · have hleaf : p.2 = VSchema.leaf acceptAll :=
      invisible_ventry_leaf values parsed.inputFields [] f hmem hnodup
        (fun q hq => absurd hq (List.not_mem_nil q)) hvis hfalse p hp hk
    rw [hleaf] at hsegs
    simp [vIssueSegs, vIssueSegsF, vsDepth, acceptAll] at hsegs
  · cases segs with
    | nil => exact hk (by simpa [dotJoin] using hjoin)
    | cons s rest =>
        have hmem2 : '.' ∈ (dotJoin (p.1 :: s :: rest)).data :=
          dot_mem_dotJoin p.1 s rest
        rw [hjoin] at hmem2
        exact hdot hmem2

/-- C7 witness: the required top-level text field x, visible only when t
is true, is exempt when t is false: no error appears at path x even
though x is undefined. -/
theorem invisible_top_field_no_error_witness :
    gatedField ∈ (parseSchema [gatedField]).inputFields ∧
    ((parseSchema [gatedField]).inputFields.map FieldSchema.name).Nodup ∧
    ('.' ∉ gatedField.name.data) ∧
    condTruthy gatedField.visibleWhen = true ∧
    evaluateCondition gatedField.visibleWhen [("t", Value.bool false)]
      = false ∧
    "x" ∉ resolverErrorPaths (parseSchema [gatedField])
      [("t", Value.bool false)] [("x", Value.undef)] :=
  ⟨List.mem_singleton.mpr rfl, by decide, by decide, by decide, by decide,
    invisible_top_field_no_error (parseSchema [gatedField])
      [("t", Value.bool false)] [("x", Value.undef)] gatedField
      (List.mem_singleton.mpr rfl) (by decide) (by decide) (by decide)
      (by decide)⟩

/-
  C5: the watch set.
-/

mutual

theorem mem_ecd_of_mem (c : Cond) :
    ∀ (acc : List String) (a : String), a ∈ acc →
      a ∈ extractConditionDependencies c acc := by
  cases c with
  | absent => intro acc a h; exact h
  | func f => intro acc a h; exact h
  | obj fieldK eqV neV gtV gteV ltV lteV inV notInV emptyV notEmptyV
      andC orC notC =>
    intro acc a h
    cases fieldK with
    | some fp =>
        simp only [extractConditionDependencies]
        exact mem_addUniq_of_mem fp h
    | none =>
      cases andC with
      | some l1 =>
          cases orC with
          | some l2 =>
              cases notC with
              | some c2 =>
                  simp only [extractConditionDependencies]
                  exact mem_ecd_of_mem c2 _ a (mem_ecdList_of_mem l2 _ a
                    (mem_ecdList_of_mem l1 _ a h))
              | none =>
                  simp only [extractConditionDependencies]
                  exact mem_ecdList_of_mem l2 _ a
                    (mem_ecdList_of_mem l1 _ a h)
          | none =>
              cases notC with
              | some c2 =>
                  simp only [extractConditionDependencies]
                  exact mem_ecd_of_mem c2 _ a (mem_ecdList_of_mem l1 _ a h)
              | none =>
                  simp only [extractConditionDependencies]
                  exact mem_ecdList_of_mem l1 _ a h
      | none =>
          cases orC with
          | some l2 =>
              cases notC with
              | some c2 =>
                  simp only [extractConditionDependencies]
                  exact mem_ecd_of_mem c2 _ a (mem_ecdList_of_mem l2 _ a h)
              | none =>
                  simp only [extractConditionDependencies]
                  exact mem_ecdList_of_mem l2 _ a h
          | none =>
              cases notC with
              | some c2 =>
                  simp only [extractConditionDependencies]
                  exact mem_ecd_of_mem c2 _ a h
              | none =>
                  simp only [extractConditionDependencies]
                  exact h

theorem mem_ecdList_of_mem (l : List Cond) :
    ∀ (acc : List String) (a : String), a ∈ acc → a ∈ ecdList l acc := by
  cases l with
  | nil => intro acc a h; exact h
  | cons c rest =>
      intro acc a h
      exact mem_ecdList_of_mem rest _ a (mem_ecd_of_mem c acc a h)

end

/-- Membership in the accumulator survives one fieldWatchStep. -/
theorem mem_fieldWatchStep_of_mem (f : FieldSchema) (acc : List String)
    (a : String) (h : a ∈ acc) : a ∈ fieldWatchStep acc f := by
  unfold fieldWatchStep
  have h1 : a ∈ (match f.dependencies with
      | some ds => ds.foldl addUniq acc
      | none => acc) := by
    cases f.dependencies with
    | some ds => exact mem_foldl_addUniq_of_mem_acc ds h
    | none => exact h
  have h2 := mem_ecd_of_mem f.visibleWhen _ a h1
  have h3 := mem_ecd_of_mem f.disabledWhen _ a h2
  have h4 := mem_ecd_of_mem f.requiredWhen _ a h3
  cases hc : f.compute with
  | none => simpa [hc] using h4
  | some c =>
      cases hd : c.dependencies with
      | none => simpa [hc, hd] using h4
      | some ds =>
          simp only [hc, hd]
          exact mem_foldl_addUniq_of_mem_acc ds h4

/-- A field's explicit compute dependencies are contributed by its own
fieldWatchStep, whatever the accumulator. -/
theorem compute_dep_mem_fieldWatchStep (f : FieldSchema)
    (c : ComputeConfig) (ds : List String) (d : String)
    (hc : f.compute = some c) (hds : c.dependencies = some ds)
    (hd : d ∈ ds) (acc : List String) : d ∈ fieldWatchStep acc f := by
  unfold fieldWatchStep
  simp only [hc, hds]
  exact mem_foldl_addUniq_of_mem _ hd

/-- Folding fieldWatchStep keeps accumulated members. -/
theorem mem_foldl_fieldWatchStep_of_mem_acc (fields : List FieldSchema)
    (acc : List String) (a : String) (h : a ∈ acc) :
    a ∈ fields.foldl fieldWatchStep acc := by
  induction fields generalizing acc with
  | nil => exact h
  | cons g rest ih => exact ih _ (mem_fieldWatchStep_of_mem g acc a h)

/-- C5 counterexample: for the parsed schema with the single computed
field total whose compute configuration {expr: a} omits the explicit
dependency list, the derived dependency set of the expression is exactly
{a} (the expression reads the field a), yet getWatchFields returns the
empty set -- so the derived dependencies are not contained in the watch
set. -/
theorem getWatchFields_missing_derived_cex :
    extractExpressionVars "a" = ["a"] ∧
    (parseSchema [derivedComputeField]).allFields = [derivedComputeField] ∧
    derivedComputeField.compute.map ComputeConfig.dependencies
      = some none ∧
    getWatchFields (parseSchema [derivedComputeField]) = [] := by
  refine ⟨by decide, rfl, rfl, by decide⟩

/-- If some member field contributes d from every accumulator, the fold
contains d. -/
theorem mem_foldl_fieldWatchStep (fields : List FieldSchema)
    (acc : List String) (f : FieldSchema) (hf : f ∈ fields) (d : String)
    (hstep : ∀ acc2 : List String, d ∈ fieldWatchStep acc2 f) :
    d ∈ fields.foldl fieldWatchStep acc := by
  induction fields generalizing acc with
  | nil => cases hf
  | cons g rest ih =>
      rcases List.mem_cons.mp hf with hfg | h2
      · rw [List.foldl_cons, ← hfg]
        exact mem_foldl_fieldWatchStep_of_mem_acc rest _ d (hstep acc)
      · exact ih _ h2

/-- C5 amended: for every parsed schema and every field carrying a compute
configuration with an explicit dependency list, every name in that list is
contained in getWatchFields; when the explicit list is omitted, the
dependency set derived from the expression is not added to the watch set
(only the parse-time dependency graph receives it). -/
theorem getWatchFields_contains_explicit_compute_deps
    (parsed : ParsedSchema) (f : FieldSchema) (c : ComputeConfig)
    (ds : List String) (d : String)
    (hf : f ∈ parsed.allFields)
    (hc : f.compute = some c) (hds : c.dependencies = some ds)
    (hd : d ∈ ds) : d ∈ getWatchFields parsed :=
  mem_foldl_fieldWatchStep parsed.allFields [] f hf d
    (compute_dep_mem_fieldWatchStep f c ds d hc hds hd)

/-- C5 witness: for the parsed schema with the single computed field whose
compute configuration declares dependencies x and y explicitly, x is in
the watch set. -/
theorem getWatchFields_contains_explicit_compute_deps_witness :
    explicitComputeField ∈ (parseSchema [explicitComputeField]).allFields ∧
    "x" ∈ getWatchFields (parseSchema [explicitComputeField]) :=
  ⟨List.mem_singleton.mpr rfl,
    getWatchFields_contains_explicit_compute_deps
      (parseSchema [explicitComputeField]) explicitComputeField
      { expr := "x * y", dependencies := some ["x", "y"],
        precision := none, roundMode := none }
      ["x", "y"] "x" (List.mem_singleton.mpr rfl) rfl rfl
      (List.mem_cons_self "x" ["y"])⟩

/-
  C9 and C10: the downstream-closure breadth-first search.
-/

/-- The BFS loop measure: pending queue entries plus the room left in the
accumulated downstream set. -/
def bfsMeasure (g : Graph) (queue acc : List String) : ℕ :=
  queue.length + ((allTargets g).length - acc.length)

theorem mem_allTargets_of_mem_entry (g : Graph) (pr : String × List String)
    (hpr : pr ∈ g) (y : String) (hy : y ∈ pr.2) : y ∈ allTargets g := by
  induction g with
  | nil => cases hpr
  | cons q rest ih =>
      rcases List.mem_cons.mp hpr with hq | h2
      · subst hq
        exact List.mem_append_left _ hy
      · exact List.mem_append_right _ (ih h2)

theorem targets_subset_allTargets (g : Graph) (x : String)
    (deps : List String) (h : graphGet g x = some deps) :
    ∀ y ∈ deps, y ∈ allTargets g := by
  intro y hy
  unfold graphGet at h
  cases hfind : g.find? (fun p => p.1 = x) with
  | none => rw [hfind] at h; cases h
  | some pr =>
      rw [hfind] at h
      have hmem := List.mem_of_find?_eq_some hfind
      have heq : pr.2 = deps := by
        injection h
      exact mem_allTargets_of_mem_entry g pr hmem y (heq ▸ hy)

theorem acc_length_le (g : Graph) (acc : List String) (hnd : acc.Nodup)
    (hsub : ∀ x ∈ acc, x ∈ allTargets g) :
    acc.length ≤ (allTargets g).length := by
  have h1 : acc.toFinset.card = acc.length :=
    List.toFinset_card_of_nodup hnd
  have h2 : acc.toFinset ⊆ (allTargets g).toFinset := by
    intro x hx
    rw [List.mem_toFinset] at hx ⊢
    exact hsub x hx
  calc acc.length = acc.toFinset.card := h1.symm
    _ ≤ (allTargets g).toFinset.card := Finset.card_le_card h2
    _ ≤ (allTargets g).length := List.toFinset_card_le _

/-- Characterization of the inner for-loop: a sublist of new elements is
appended to both the downstream set and the queue; they are fresh,
duplicate-free, and together with the old set cover the dependents. -/
theorem pushNew_spec (ds : List String) :
    ∀ acc queue : List String,
      ∃ added : List String,
        pushNew acc queue ds = (acc ++ added, queue ++ added) ∧
        added.Nodup ∧
        (∀ x ∈ added, x ∈ ds ∧ x ∉ acc) ∧
        (∀ x ∈ ds, x ∈ acc ∨ x ∈ added) := by
  induction ds with
  | nil =>
      intro acc queue
      exact ⟨[], by simp [pushNew], List.nodup_nil, by simp, by simp⟩
  | cons dd rest ih =>
      intro acc queue
      by_cases hc : acc.contains dd = true
      · have hdd : dd ∈ acc := List.mem_of_elem_eq_true hc
        rcases ih acc queue with ⟨added, heq, hnd, hsub, hcov⟩
        refine ⟨added, ?_, hnd,
          fun x hx => ⟨List.mem_cons_of_mem _ (hsub x hx).1,
            (hsub x hx).2⟩, ?_⟩
        · rw [pushNew, if_pos hc]
          exact heq
        · intro x hx
          rcases List.mem_cons.mp hx with hx1 | hx2
          · subst hx1
            exact Or.inl hdd
          · exact hcov x hx2
      · have hdd : dd ∉ acc := fun hm => hc (List.elem_eq_true_of_mem hm)
        rcases ih (acc ++ [dd]) (queue ++ [dd]) with ⟨added, heq, hnd, hsub, hcov⟩
        refine ⟨dd :: added, ?_, ?_, ?_, ?_⟩
        · rw [pushNew, if_neg hc, heq]
          simp
        · rw [List.nodup_cons]
          refine ⟨fun hmem => ?_, hnd⟩
          exact (hsub dd hmem).2
            (List.mem_append_right _ (List.mem_singleton.mpr rfl))
        · intro x hx
          rcases List.mem_cons.mp hx with hx1 | hx2
          · subst hx1
            exact ⟨List.mem_cons_self _ _, hdd⟩
          · rcases hsub x hx2 with ⟨h1, h2⟩
            exact ⟨List.mem_cons_of_mem _ h1,
              fun hm => h2 (List.mem_append_left _ hm)⟩
        · intro x hx
          rcases List.mem_cons.mp hx with hx1 | hx2
          · subst hx1
            exact Or.inr (List.mem_cons_self _ _)
          · rcases hcov x hx2 with h1 | h1
            · rcases List.mem_append.mp h1 with h2 | h2
              · exact Or.inl h2
              · exact Or.inr (List.mem_singleton.mp h2 ▸
                  List.mem_cons_self _ _)
            · exact Or.inr (List.mem_cons_of_mem _ h1)

/-- With the loop measure below the fuel, one more unit of fuel changes
nothing: the loop has already drained its queue. -/
theorem downstreamAux_fuel_succ (g : Graph) :
    ∀ (fuel : ℕ) (queue acc : List String),
      acc.Nodup → (∀ x ∈ acc, x ∈ allTargets g) →
      bfsMeasure g queue acc ≤ fuel →
      downstreamAux g fuel queue acc
        = downstreamAux g (fuel + 1) queue acc := by
  intro fuel
  induction fuel with
  | zero =>
      intro queue acc hnd hsub hm
      have hq : queue = [] := by
        have h0 : queue.length = 0 := by
          unfold bfsMeasure at hm
          omega
        exact List.length_eq_zero.mp h0
      subst hq
      rfl
  | succ fuel ih =>
      intro queue acc hnd hsub hm
      cases queue with
      | nil => rfl
      | cons current rest =>
          have hm' : rest.length + 1 + ((allTargets g).length - acc.length)
              ≤ fuel + 1 := by
            unfold bfsMeasure at hm
            simpa [List.length_cons] using hm
          simp only [downstreamAux]
          by_cases hcur : current = ""
          · rw [if_pos hcur, if_pos hcur]
            apply ih rest acc hnd hsub
            unfold bfsMeasure
            omega
          · rw [if_neg hcur, if_neg hcur]
            cases htg : graphGet g current with
            | none =>
                apply ih rest acc hnd hsub
                unfold bfsMeasure
                omega
            | some deps =>
                rcases pushNew_spec deps acc rest with
                  ⟨added, heq, hnd2, hsubadd, hcov⟩
                simp only [heq]
                have hnd3 : (acc ++ added).Nodup := by
                  rw [List.nodup_append]
                  exact ⟨hnd, hnd2, fun x hx hx2 => (hsubadd x hx2).2 hx⟩
                have hsub3 : ∀ x ∈ acc ++ added, x ∈ allTargets g := by
                  intro x hx
                  rcases List.mem_append.mp hx with h1 | h1
                  · exact hsub x h1
                  · exact targets_subset_allTargets g current deps htg x
                      (hsubadd x h1).1
                apply ih (rest ++ added) (acc ++ added) hnd3 hsub3
                have hlen : (acc ++ added).length ≤ (allTargets g).length :=
                  acc_length_le g _ hnd3 hsub3
                unfold bfsMeasure
                rw [List.length_append, List.length_append] at *
                omega

/-- One or more reverse edges extended by one more edge. -/
theorem reachesPlus_extend {g : Graph} {s c d : String}
    (h : ReachesPlus g s c) (he : edge g c d) : ReachesPlus g s d := by
  induction h with
  | single h1 => exact ReachesPlus.step h1 (ReachesPlus.single he)
  | step h1 _ ih => exact ReachesPlus.step h1 (ih he)

/-- Everything the BFS returns is reachable from the start node. -/
theorem downstreamAux_sound (g : Graph) (s : String) :
    ∀ (fuel : ℕ) (queue acc : List String),
      (∀ a ∈ acc, ReachesPlus g s a) →
      (∀ q ∈ queue, q = s ∨ ReachesPlus g s q) →
      ∀ x ∈ downstreamAux g fuel queue acc, ReachesPlus g s x := by
  intro fuel
  induction fuel with
  | zero =>
      intro queue acc hacc _ x hx
      exact hacc x hx
  | succ fuel ih =>
      intro queue acc hacc hq x hx
      cases queue with
      | nil => exact hacc x hx
      | cons current rest =>
          simp only [downstreamAux] at hx
          by_cases hcur : current = ""
          · rw [if_pos hcur] at hx
            exact ih rest acc hacc
              (fun q hq2 => hq q (List.mem_cons_of_mem _ hq2)) x hx
          · rw [if_neg hcur] at hx
            cases htg : graphGet g current with
            | none =>
                rw [htg] at hx
                exact ih rest acc hacc
                  (fun q hq2 => hq q (List.mem_cons_of_mem _ hq2)) x hx
            | some deps =>
                rw [htg] at hx
                rcases pushNew_spec deps acc rest with
                  ⟨added, heq, _, hsubadd, _⟩
                simp only [heq] at hx
                have hadd_reach : ∀ a ∈ added, ReachesPlus g s a := by
                  intro a ha
                  have hedge : edge g current a := by
                    unfold edge
                    rw [htg]
                    exact (hsubadd a ha).1
                  rcases hq current (List.mem_cons_self _ _) with hcs | hr
                  · rw [hcs] at hedge
                    exact ReachesPlus.single hedge
                  · exact reachesPlus_extend hr hedge
                apply ih (rest ++ added) (acc ++ added) ?_ ?_ x hx
                · intro a ha
                  rcases List.mem_append.mp ha with h1 | h1
                  · exact hacc a h1
                  · exact hadd_reach a h1
                · intro q hq2
                  rcases List.mem_append.mp hq2 with h1 | h1
                  · exact hq q (List.mem_cons_of_mem _ h1)
                  · exact Or.inr (hadd_reach q h1)

/-- A set closed under following edges out of itself and out of the start
node contains everything reachable from the start node. -/
theorem reaches_mem_of_closed (g : Graph) (s : String) (S : List String)
    (hclosed : ∀ u, (u = s ∨ u ∈ S) → ∀ v, edge g u v → v ∈ S) :
    ∀ x, ReachesPlus g s x → x ∈ S := by
  have main : ∀ u x, ReachesPlus g u x → (u = s ∨ u ∈ S) → x ∈ S := by
    intro u x hr
    induction hr with
    | single he =>
        intro hu
        exact hclosed _ hu _ he
    | step he _ ih =>
        intro hu
        exact ih (Or.inr (hclosed _ hu _ he))
  exact fun x hr => main s x hr (Or.inl rfl)

/-- When the empty string is not a key of the graph, it has no outgoing
reverse edges. -/
theorem graphGet_empty_none (g : Graph)
    (hg : ∀ k ∈ g.map Prod.fst, k ≠ "") : graphGet g "" = none := by
  unfold graphGet
  cases hfind : g.find? (fun p => p.1 = "") with
  | none => rfl
  | some pr =>
      have h1 := List.find?_some hfind
      have h2 := List.mem_of_find?_eq_some hfind
      have h3 := hg pr.1 (List.mem_map_of_mem Prod.fst h2)
      simp at h1
      exact absurd h1 h3

/-- Everything reachable from the start node appears in the BFS result,
provided no graph key is the empty string (the dequeue guard would
otherwise skip it). -/
theorem downstreamAux_complete (g : Graph) (s : String)
    (hg : ∀ k ∈ g.map Prod.fst, k ≠ "") :
    ∀ (fuel : ℕ) (queue acc : List String),
      acc.Nodup → (∀ x ∈ acc, x ∈ allTargets g) →
      bfsMeasure g queue acc ≤ fuel →
      (∀ u, (u = s ∨ u ∈ acc) → u ∉ queue → ∀ v, edge g u v → v ∈ acc) →
      ∀ x, ReachesPlus g s x → x ∈ downstreamAux g fuel queue acc := by
  intro fuel
  induction fuel with
  | zero =>
      intro queue acc _ _ hm hJ x hr
      have hq : queue = [] := by
        have h0 : queue.length = 0 := by
          unfold bfsMeasure at hm
          omega
        exact List.length_eq_zero.mp h0
      subst hq
      exact reaches_mem_of_closed g s acc
        (fun u hu v he => hJ u hu (List.not_mem_nil u) v he) x hr
  | succ fuel ih =>
      intro queue acc hnd hsub hm hJ x hr
      cases queue with
      | nil =>
          exact reaches_mem_of_closed g s acc
            (fun u hu v he => hJ u hu (List.not_mem_nil u) v he) x hr
      | cons current rest =>
          have hm' : rest.length + 1 + ((allTargets g).length - acc.length)
              ≤ fuel + 1 := by
            unfold bfsMeasure at hm
            simpa [List.length_cons] using hm
          simp only [downstreamAux]
          by_cases hcur : current = ""
          · rw [if_pos hcur]
            apply ih rest acc hnd hsub ?_ ?_ x hr
            · unfold bfsMeasure
              omega
            · intro u hu hunq v he
              by_cases huc : u = current
              · subst huc
                unfold edge at he
                rw [hcur, graphGet_empty_none g hg] at he
                cases he
              · exact hJ u hu (fun hmem => by
                  rcases List.mem_cons.mp hmem with h1 | h1
                  · exact huc h1
                  · exact hunq h1) v he
          · rw [if_neg hcur]
            cases htg : graphGet g current with
            | none =>
                apply ih rest acc hnd hsub ?_ ?_ x hr
                · unfold bfsMeasure
                  omega
                · intro u hu hunq v he
                  by_cases huc : u = current
                  · subst huc
                    unfold edge at he
                    rw [htg] at he
                    cases he
                  · exact hJ u hu (fun hmem => by
                      rcases List.mem_cons.mp hmem with h1 | h1
                      · exact huc h1
                      · exact hunq h1) v he
            | some deps =>
                rcases pushNew_spec deps acc rest with
                  ⟨added, heq, hnd2, hsubadd, hcov⟩
                simp only [heq]
                have hnd3 : (acc ++ added).Nodup := by
                  rw [List.nodup_append]
                  exact ⟨hnd, hnd2, fun y hy hy2 => (hsubadd y hy2).2 hy⟩
                have hsub3 : ∀ y ∈ acc ++ added, y ∈ allTargets g := by
                  intro y hy
                  rcases List.mem_append.mp hy with h1 | h1
                  · exact hsub y h1
                  · exact targets_subset_allTargets g current deps htg y
                      (hsubadd y h1).1
                apply ih (rest ++ added) (acc ++ added) hnd3 hsub3 ?_ ?_ x hr
                · have hlen : (acc ++ added).length
                      ≤ (allTargets g).length := acc_length_le g _ hnd3 hsub3
                  unfold bfsMeasure
                  rw [List.length_append, List.length_append] at *
                  omega
                · intro u hu hunq v he
                  by_cases huc : u = current
                  · subst huc
                    unfold edge at he
                    rw [htg] at he
                    rcases hcov v he with h1 | h1
                    · exact List.mem_append_left _ h1
                    · exact List.mem_append_right _ h1
                  · have hu' : u = s ∨ u ∈ acc := by
                      rcases hu with h1 | h1
                      · exact Or.inl h1
                      · rcases List.mem_append.mp h1 with h2 | h2
                        · exact Or.inr h2
                        · exact absurd (List.mem_append_right rest h2) hunq
                    have hres : v ∈ acc := hJ u hu' (fun hmem => by
                      rcases List.mem_cons.mp hmem with h1 | h1
                      · exact huc h1
                      · exact hunq (List.mem_append_left _ h1)) v he
                    exact List.mem_append_left _ hres

/-- C9 counterexample: in the graph where a's dependent is the empty-named
field and the empty-named field's dependent is b, the node b is reachable
from a by two reverse edges, yet getDownstreamFields returns only the
empty name: the dequeue guard treats the empty string as a missing entry
and never expands it. -/
theorem getDownstreamFields_empty_name_cex :
    getDownstreamFields "a" emptyNameGraph = [""] ∧
    ReachesPlus emptyNameGraph "a" "b" ∧
    "b" ∉ getDownstreamFields "a" emptyNameGraph := by
  refine ⟨by decide, ?_, by decide⟩
  exact ReachesPlus.step
    (show edge emptyNameGraph "a" "" by unfold edge; decide)
    (ReachesPlus.single
      (show edge emptyNameGraph "" "b" by unfold edge; decide))

/-- C9 amended: provided no field name in the graph's key set is the empty
string, getDownstreamFields returns exactly the set of field names
reachable from the start by one or more reverse dependency edges; in
particular for the graph a -> b -> c it returns exactly b and c. -/
theorem getDownstreamFields_reachability (g : Graph) (s : String)
    (hg : ∀ k ∈ g.map Prod.fst, k ≠ "") (x : String) :
    x ∈ getDownstreamFields s g ↔ ReachesPlus g s x := by
  constructor
  · intro hx
    exact downstreamAux_sound g s _ [s] [] (fun a ha => absurd ha
        (List.not_mem_nil a))
      (fun q hq => Or.inl (List.mem_singleton.mp hq)) x hx
  · intro hr
    apply downstreamAux_complete g s hg _ [s] [] List.nodup_nil
      (fun y hy => absurd hy (List.not_mem_nil y)) ?_ ?_ x hr
    · unfold bfsMeasure downstreamFuel
      simp
    · intro u hu hunq v _
      rcases hu with h1 | h1
      · exact absurd (h1 ▸ List.mem_singleton.mpr rfl) hunq
      · exact absurd h1 (List.not_mem_nil u)

/-- C9 witness: the chain graph with edges a -> b and b -> c has no
empty-string key; membership in getDownstreamFields from a coincides with
reachability, and the returned set is exactly b, c. -/
theorem getDownstreamFields_reachability_witness :
    (∀ k ∈ chainGraph.map Prod.fst, k ≠ "") ∧
    ("b" ∈ getDownstreamFields "a" chainGraph
      ↔ ReachesPlus chainGraph "a" "b") ∧
    getDownstreamFields "a" chainGraph = ["b", "c"] :=
  ⟨by decide,
    getDownstreamFields_reachability chainGraph "a" (by decide) "b",
    by decide⟩

/-- C10: for every finite dependency graph -- cyclic graphs included --
the BFS terminates: the computed fuel bound, one dequeue for the start
plus one for every node that can ever be enqueued (each node is enqueued
at most once because a node already in the downstream set is never
re-added), already drains the queue, so any extra fuel leaves the result
unchanged; on the two-cycle a <-> b the closure from a is b, a. -/
theorem getDownstreamFields_fuel_stable :
    (∀ (g : Graph) (fieldName : String) (extra : ℕ),
      downstreamAux g (downstreamFuel g + extra) [fieldName] []
        = getDownstreamFields fieldName g) ∧
    getDownstreamFields "a" cycleGraph = ["b", "a"] := by
  constructor
  · intro g fieldName extra
    induction extra with
    | zero => rfl
    | succ n ih =>
        rw [← ih]
        have hstep := downstreamAux_fuel_succ g (downstreamFuel g + n)
          [fieldName] [] List.nodup_nil
          (fun y hy => absurd hy (List.not_mem_nil y)) ?_
        · rw [show downstreamFuel g + (n + 1)
              = downstreamFuel g + n + 1 by omega]
          exact hstep.symm
        · unfold bfsMeasure downstreamFuel
          simp
  · decide

end FastSpace
